import Mathlib

/-!
Verification of the ROSE symbolic-expression engine
(`src/midend/BinaryAnalysis/BinarySymbolicExpr.h`).

The header file in the repository declares the data model (`Node`, `Leaf`,
`Interior`), the simplification pipeline, and defines several template
functions (`nNodes`, `nNodesUnique`, `findCommonSubexpressions`) inline.
The bodies of the non-template member functions live in a `.C` file that is
not part of the repository excerpt; where a development below depends on
such a body, the definition is modelled from the specification and the
header's own documentation comments, and is marked as such in its doc
comment.
-/

namespace RoseSymExpr

/-- Operators for interior nodes of the expression tree, mirroring the
`Operator` enumeration of the header (OP_ADD .. OP_ZEROP). -/
inductive Operator where
  | ADD | AND | ASR | CONCAT | EQ | EXTRACT | INVERT | ITE | LET
  | LSSB | MSSB | NE | NEGATE | NOOP | OR | READ | ROL | ROR
  | SDIV | SET | SEXTEND | SGE | SGT | SHL0 | SHL1 | SHR0 | SHR1
  | SLE | SLT | SMOD | SMUL | UDIV | UEXTEND | UGE | UGT | ULE | ULT
  | UMOD | UMUL | WRITE | XOR | ZEROP
deriving DecidableEq, Repr

/-- Position of an operator in the enumeration, used as its sort key. -/
def opIndex : Operator → Nat
  | .ADD => 0 | .AND => 1 | .ASR => 2 | .CONCAT => 3 | .EQ => 4
  | .EXTRACT => 5 | .INVERT => 6 | .ITE => 7 | .LET => 8
  | .LSSB => 9 | .MSSB => 10 | .NE => 11 | .NEGATE => 12 | .NOOP => 13
  | .OR => 14 | .READ => 15 | .ROL => 16 | .ROR => 17
  | .SDIV => 18 | .SET => 19 | .SEXTEND => 20 | .SGE => 21 | .SGT => 22
  | .SHL0 => 23 | .SHL1 => 24 | .SHR0 => 25 | .SHR1 => 26
  | .SLE => 27 | .SLT => 28 | .SMOD => 29 | .SMUL => 30 | .UDIV => 31
  | .UEXTEND => 32 | .UGE => 33 | .UGT => 34 | .ULE => 35 | .ULT => 36
  | .UMOD => 37 | .UMUL => 38 | .WRITE => 39 | .XOR => 40 | .ZEROP => 41

/-- Left inverse of `opIndex` (any default for out-of-range inputs). -/
def opOfIndex : Nat → Operator
  | 0 => .ADD | 1 => .AND | 2 => .ASR | 3 => .CONCAT | 4 => .EQ
  | 5 => .EXTRACT | 6 => .INVERT | 7 => .ITE | 8 => .LET
  | 9 => .LSSB | 10 => .MSSB | 11 => .NE | 12 => .NEGATE | 13 => .NOOP
  | 14 => .OR | 15 => .READ | 16 => .ROL | 17 => .ROR
  | 18 => .SDIV | 19 => .SET | 20 => .SEXTEND | 21 => .SGE | 22 => .SGT
  | 23 => .SHL0 | 24 => .SHL1 | 25 => .SHR0 | 26 => .SHR1
  | 27 => .SLE | 28 => .SLT | 29 => .SMOD | 30 => .SMUL | 31 => .UDIV
  | 32 => .UEXTEND | 33 => .UGE | 34 => .UGT | 35 => .ULE | 36 => .ULT
  | 37 => .UMOD | 38 => .UMUL | 39 => .WRITE | 40 => .XOR | _ => .ZEROP

/-- Symbolic expression tree, carrying only the fields that are significant
for structural equivalence and hashing: the width (`nBits_`), the
user-defined bit flags (`flags_`), and the per-kind content.  The mutable
non-semantic fields (`comment_`, `userData_`, cached `hashval_`) are
deliberately omitted here; the hash cache is modelled separately.

Leaf variants follow the `Leaf` class (`LeafType`: CONSTANT holds a
bit-vector value with all bits above the width being zero, BITVECTOR holds
a variable identity `name_`, MEMORY holds an identity plus a domain width);
`interior` follows the `Interior` class (operator plus ordered children). -/
inductive Expr where
  | const (nbits : Nat) (value : Nat) (flags : Nat)
  | var (nbits : Nat) (id : Nat) (flags : Nat)
  | mem (domainWidth : Nat) (nbits : Nat) (id : Nat) (flags : Nat)
  | interior (op : Operator) (nbits : Nat) (flags : Nat) (children : List Expr)
deriving Repr

namespace Expr

/-- Property: number of significant bits (`Node::nBits`). -/
def nBits : Expr → Nat
  | .const w _ _ => w
  | .var w _ _ => w
  | .mem _ w _ _ => w
  | .interior _ w _ _ => w

/-- Property: user-defined bit flags (`Node::flags`). -/
def flags : Expr → Nat
  | .const _ _ f => f
  | .var _ _ f => f
  | .mem _ _ _ f => f
  | .interior _ _ f _ => f

/-- Returns true if the expression is a known numeric value
(`Leaf::isNumber` is true exactly for CONSTANT leaves; `Interior::isNumber`
always returns false). -/
def isNumber : Expr → Bool
  | .const _ _ _ => true
  | _ => false

/-- Integer value of a node for which `isNumber` returns true
(`Leaf::toInt`); zero elsewhere, standing in for the fatal assertion. -/
def toInt : Expr → Nat
  | .const _ v _ => v
  | _ => 0

/-- Construct a new integer with the given number of significant bits;
high-order bits beyond the width are zeroed (`Leaf::createInteger`). -/
def createInteger (nbits n : Nat) (flags : Nat := 0) : Expr :=
  .const nbits (n % 2 ^ nbits) flags

/-- Create a new Boolean, a single-bit integer (`Leaf::createBoolean`). -/
def createBoolean (b : Bool) (flags : Nat := 0) : Expr :=
  createInteger 1 (if b then 1 else 0) flags

end Expr

/-- Numeric tag distinguishing the node kinds, used by the structural
comparison to order nodes of different kinds. -/
def kindTag : Expr → Nat
  | .const _ _ _ => 0
  | .var _ _ _ => 1
  | .mem _ _ _ _ => 2
  | .interior _ _ _ _ => 3

mutual

/-- Modelled from the spec: `Node::isEquivalentTo` (its body is in the
missing `.C` file).  Per the header documentation and §3 of the spec, two
leaves are equivalent iff they have the same kind, width, flags and equal
value (respectively the same variable or memory identity); two interior
nodes are equivalent iff they have the same operator, width, flags, the
same number of children, and pairwise equivalent children in order. -/
def isEquivalentTo : Expr → Expr → Bool
  | .const w₁ v₁ f₁, .const w₂ v₂ f₂ => w₁ == w₂ && f₁ == f₂ && v₁ == v₂
  | .var w₁ i₁ f₁, .var w₂ i₂ f₂ => w₁ == w₂ && f₁ == f₂ && i₁ == i₂
  | .mem d₁ w₁ i₁ f₁, .mem d₂ w₂ i₂ f₂ => d₁ == d₂ && w₁ == w₂ && f₁ == f₂ && i₁ == i₂
  | .interior o₁ w₁ f₁ c₁, .interior o₂ w₂ f₂ c₂ =>
      o₁ == o₂ && w₁ == w₂ && f₁ == f₂ && equivList c₁ c₂
  | _, _ => false

/-- Pairwise structural equivalence of child lists, requiring equal length. -/
def equivList : List Expr → List Expr → Bool
  | [], [] => true
  | x :: xs, y :: ys => isEquivalentTo x y && equivList xs ys
  | _, _ => false

end

mutual

/-- Modelled from the spec: content comparison behind `Node::compareStructure`
(its body is in the missing `.C` file).  For two nodes of the same kind the
fields are compared lexicographically; for nodes of different kinds the
result is unused (the kind tags are compared first by `cmpE`).  The spec
only requires a total order over the structural-equivalence quotient that
returns zero exactly on equivalent nodes. -/
def cmpSame : Expr → Expr → Ordering
  | .const w₁ v₁ f₁, .const w₂ v₂ f₂ =>
      (compare w₁ w₂).then ((compare f₁ f₂).then (compare v₁ v₂))
  | .var w₁ i₁ f₁, .var w₂ i₂ f₂ =>
      (compare w₁ w₂).then ((compare f₁ f₂).then (compare i₁ i₂))
  | .mem d₁ w₁ i₁ f₁, .mem d₂ w₂ i₂ f₂ =>
      (compare d₁ d₂).then ((compare w₁ w₂).then ((compare f₁ f₂).then (compare i₁ i₂)))
  | .interior o₁ w₁ f₁ c₁, .interior o₂ w₂ f₂ c₂ =>
      (compare (opIndex o₁) (opIndex o₂)).then
        ((compare w₁ w₂).then ((compare f₁ f₂).then (cmpList c₁ c₂)))
  | _, _ => .eq

/-- Lexicographic structural comparison of child lists. -/
def cmpList : List Expr → List Expr → Ordering
  | [], [] => .eq
  | [], _ :: _ => .lt
  | _ :: _, [] => .gt
  | x :: xs, y :: ys =>
      ((compare (kindTag x) (kindTag y)).then (cmpSame x y)).then (cmpList xs ys)

end

/-- Structural comparison of two expressions: nodes of different kinds are
ordered by their kind tag, nodes of the same kind by their fields. -/
def cmpE (a b : Expr) : Ordering :=
  (compare (kindTag a) (kindTag b)).then (cmpSame a b)

/-- Compare two expressions structurally for sorting (`Node::compareStructure`).
Modelled from the spec: the body is in the missing `.C` file; the header
fixes the contract to return -1, 0 or 1, returning 0 exactly when
`isEquivalentTo` holds, yielding a total order used to canonicalize
commutative operand order. -/
def compareStructure (a b : Expr) : Int :=
  match cmpE a b with
  | .lt => -1
  | .eq => 0
  | .gt => 1

/-- Modelled from the spec: `mustEqual` in the solver-free case (the bodies
of `Leaf::mustEqual` and `Interior::mustEqual` are in the missing `.C`
file).  Per the header documentation, equality is established by looking at
the structure of the two expressions, except that two known numeric values
are compared by numeric value regardless of width (a 32-bit constant zero
is equal to a 16-bit constant zero). -/
def mustEqual (a b : Expr) : Bool :=
  if a.isNumber && b.isNumber then a.toInt == b.toInt
  else isEquivalentTo a b

/-- Sort rank for commutative canonicalization: interior nodes come before
leaf nodes (`Interior::commutative`). -/
def sortRank : Expr → Nat
  | .interior _ _ _ _ => 0
  | _ => 1

/-- Comparison used to sort the children of a commutative operator:
interior nodes before leaves, ties broken by the structural comparison. -/
def childCmp (a b : Expr) : Ordering :=
  (compare (sortRank a) (sortRank b)).then (cmpE a b)

/-- Boolean ordering predicate derived from `childCmp`. -/
def childLe (a b : Expr) : Bool :=
  match childCmp a b with
  | .gt => false
  | _ => true

/-- Propositional form of `childLe`, for use with the sorting library. -/
def childLeP (a b : Expr) : Prop := childLe a b = true

instance : DecidableRel childLeP := fun a b => instDecidableEqBool (childLe a b) true

/-- Modelled from the spec: `Interior::commutative` (body in the missing
`.C` file) sorts the children of a commutative operator into the canonical
order given by `childCmp`. -/
def commutative (children : List Expr) : List Expr :=
  children.insertionSort childLeP

/-- Modelled from the spec: `Interior::associative` (body in the missing
`.C` file) inlines children that are interior nodes of the same operator,
eliminating one level of nesting. -/
def associative (op : Operator) (children : List Expr) : List Expr :=
  children.foldr
    (fun c acc =>
      match c with
      | .interior o _ _ cs => if o == op then cs ++ acc else c :: acc
      | _ => c :: acc)
    []

/-- Union of the flags of all the given nodes (Interior Node Rule and
Simplification Folding Rule: flags of a combination are the union of the
flags of the nodes it depends on). -/
def unionFlags (children : List Expr) : Nat :=
  children.foldl (fun a c => a ||| c.flags) 0

/-- Is the node a constant leaf? -/
def isConstE : Expr → Bool
  | .const _ _ _ => true
  | _ => false

/-- Modelled from the spec: `AddSimplifier::fold` through
`Interior::foldConstants` (bodies in the missing `.C` file).  When at least
two children are known constants they are folded into a single constant
leaf whose value is their sum modulo 2^w (two's-complement wraparound) and
whose flags are the union of the folded operands' flags. -/
def foldAdd (w : Nat) (children : List Expr) : List Expr :=
  let consts := children.filter isConstE
  if 2 ≤ consts.length then
    Expr.const w ((consts.foldl (fun a c => a + c.toInt) 0) % 2 ^ w) (unionFlags consts)
      :: children.filter (fun c => !isConstE c)
  else children

/-- Modelled from the spec: `XorSimplifier::fold` (body in the missing `.C`
file): constants are folded by bitwise exclusive disjunction. -/
def foldXor (w : Nat) (children : List Expr) : List Expr :=
  let consts := children.filter isConstE
  if 2 ≤ consts.length then
    Expr.const w (consts.foldl (fun a c => a ^^^ c.toInt) 0) (unionFlags consts)
      :: children.filter (fun c => !isConstE c)
  else children

/-- Does the list contain a node structurally equivalent to `x`? -/
def containsEquiv (l : List Expr) (x : Expr) : Bool :=
  l.any (isEquivalentTo x)

/-- Remove the first node structurally equivalent to `x`. -/
def eraseEquiv : List Expr → Expr → List Expr
  | [], _ => []
  | y :: ys, x => if isEquivalentTo x y then ys else y :: eraseEquiv ys x

/-- Modelled from the spec: the self-cancellation rule of
`XorSimplifier::rewrite` (body in the missing `.C` file): pairs of
structurally equivalent operands of an XOR cancel each other
(`x XOR x → 0`); each child is kept exactly when it has been seen an odd
number of times so far. -/
def cancelPairs (l : List Expr) : List Expr :=
  l.foldl (fun acc x => if containsEquiv acc x then eraseEquiv acc x else acc ++ [x]) []

/-- Modelled from the spec: `Interior::identity` (body in the missing `.C`
file) removes arguments equal to the identity constant of the operator
(`x + 0 → x`, `x XOR 0 → x`); the Simplification Discard Rule applies, so
the flags of removed children do not propagate. -/
def removeIdentity (ident : Nat) (children : List Expr) : List Expr :=
  children.filter (fun c => !(isConstE c && c.toInt == ident))

/-- Modelled from the spec: the tail of the construction pipeline.  When all
children cancelled, a brand-new zero constant with zero flags is produced
(Simplification Create Rule); a single surviving child is returned directly
(`Interior::unaryNoOp`); otherwise the interior node is built with flags
equal to the union of its surviving children's flags (Interior Node Rule,
`Interior::adjustBitFlags` with no extra flags). -/
def finalizeNode (op : Operator) (w : Nat) (children : List Expr) : Expr :=
  match children with
  | [] => Expr.const w 0 0
  | [c] => c
  | cs => Expr.interior op w (unionFlags cs) cs

/-- Modelled from the spec: the `makeAdd` factory backed by
`Interior::create` and `Interior::simplifyTop` (bodies in the missing `.C`
file).  The pipeline runs associativity flattening, commutative sorting,
constant folding and identity elimination, in the documented order. -/
def makeAdd (a b : Expr) : Expr :=
  let w := a.nBits
  finalizeNode .ADD w (removeIdentity 0 (foldAdd w (commutative (associative .ADD [a, b]))))

/-- Modelled from the spec: the `makeXor` factory backed by
`Interior::create` and `Interior::simplifyTop` (bodies in the missing `.C`
file), with the XOR self-cancellation rewrite after constant folding. -/
def makeXor (a b : Expr) : Expr :=
  let w := a.nBits
  finalizeNode .XOR w
    (removeIdentity 0 (cancelPairs (foldXor w (commutative (associative .XOR [a, b])))))

/-- Modelled from the spec: the `makeEq` factory backed by
`EqSimplifier::rewrite` (body in the missing `.C` file).  Two known
constants fold per the operator's numeric semantics; comparing an
expression with a structurally equivalent one folds to Boolean true with
the flags of the compared operands (Relational Operator Rule); otherwise an
EQ node is built over the canonically ordered operands. -/
def makeEq (a b : Expr) : Expr :=
  if a.isNumber && b.isNumber then
    Expr.const 1 (if a.toInt == b.toInt then 1 else 0) (a.flags ||| b.flags)
  else if isEquivalentTo a b then
    Expr.const 1 1 (a.flags ||| b.flags)
  else
    Expr.interior .EQ 1 (a.flags ||| b.flags) (commutative [a, b])

/-- Is the operator one of the shift or rotate operators? -/
def isShiftOp : Operator → Bool
  | .ASR | .SHL0 | .SHL1 | .SHR0 | .SHR1 | .ROL | .ROR => true
  | _ => false

/-- Modelled from the spec: numeric semantics of the shift and rotate
operators on a `w`-bit value `a` shifted by amount `sa` (the simplifier
bodies are in the missing `.C` file).  Per the spec's numeric-semantics
table and the operator documentation in the header, the shift amount is an
unsigned quantity effectively taken modulo the width of the shifted
operand; SHL1/SHR1 introduce ones at the vacated positions, ASR replicates
the most significant bit, ROL/ROR rotate. -/
def evalShift (op : Operator) (w sa a : Nat) : Nat :=
  let s := sa % w
  match op with
  | .ASR => a / 2 ^ s + (if 2 ^ (w - 1) ≤ a then 2 ^ w - 2 ^ (w - s) else 0)
  | .SHL0 => (a * 2 ^ s) % 2 ^ w
  | .SHL1 => (a * 2 ^ s + (2 ^ s - 1)) % 2 ^ w
  | .SHR0 => a / 2 ^ s
  | .SHR1 => a / 2 ^ s + (2 ^ w - 2 ^ (w - s))
  | .ROL => (a % 2 ^ (w - s)) * 2 ^ s + a / 2 ^ (w - s)
  | .ROR => (a % 2 ^ s) * 2 ^ (w - s) + a / 2 ^ s
  | _ => 0

/-- Modelled from the spec: shift/rotate node construction
(`makeAsr`, `makeShl0`, ... backed by `Interior::create`): the result width
is the width of the shifted operand `b` (`Interior::adjustWidth`), and two
known constants fold per `evalShift` with flags per the Simplification
Folding Rule. -/
def makeShift (op : Operator) (sa b : Expr) : Expr :=
  if sa.isNumber && b.isNumber then
    Expr.const b.nBits (evalShift op b.nBits sa.toInt b.toInt) (sa.flags ||| b.flags)
  else
    Expr.interior op b.nBits (sa.flags ||| b.flags) [sa, b]

/-- Mutable hash-cache cell of a node: the `hashval_` field.  Zero means
"not yet computed" (`Node::isHashed`). -/
structure HashState where
  hashval : Nat
deriving Repr, DecidableEq

/-- Returns true if this node has a hash value computed and cached; the
hash value zero is reserved to indicate that no hash has been computed
(`Node::isHashed`, header line 438). -/
def isHashed (s : HashState) : Bool := s.hashval != 0

/-- Modelled from the spec: `Node::hash()` (body in the missing `.C` file).
Per the header documentation, if a hash value is cached it is returned;
otherwise the hash (here an opaque externally computed value `computed`) is
computed, cached unless it is zero, and returned.  The result is the
returned hash together with the updated cache cell. -/
def hashCall (computed : Nat) (s : HashState) : Nat × HashState :=
  if s.hashval != 0 then (s.hashval, s)
  else (computed, if computed != 0 then ⟨computed⟩ else s)

/-- Modelled from the spec: the sentinel `MAX_NNODES` is defined in the
missing `.C` file; it is the saturated maximum of the unsigned 64-bit node
counter ("too large to report"). -/
def MAX_NNODES : Nat := 2 ^ 64 - 1

/-- Loop body of the free function `nNodes(begin, end)` (header lines
1098-1111), with the `uint64_t` running total represented as a natural
number below 2^64 and the wrap-around overflow test `total + n < total`
written with an explicit modulus. -/
def nNodesLoop : Nat → List Nat → Nat
  | total, [] => total
  | total, n :: rest =>
      if n = MAX_NNODES then MAX_NNODES
      else if (total + n) % 2 ^ 64 < total then MAX_NNODES
      else nNodesLoop ((total + n) % 2 ^ 64) rest

/-- Counts the total number of nodes in multiple expressions, given the
per-expression `nnodes()` counts; the return value is a saturated sum,
returning `MAX_NNODES` if an overflow occurs (free function `nNodes`). -/
def nNodes (counts : List Nat) : Nat := nNodesLoop 0 counts

/-- Node object of a shared expression DAG.  The position of a node in the
store is its identity (standing in for the raw `Node*` pointer); an inner
node holds the identities of its children. -/
inductive DagNode where
  | leaf (payload : Nat)
  | inner (op : Nat) (children : List Nat)
deriving Repr, DecidableEq

/-- Child identities of the node object at index `i` of the store. -/
def childIndices (store : List DagNode) (i : Nat) : List Nat :=
  match store.getD i (.leaf 0) with
  | .leaf _ => []
  | .inner _ cs => cs

/-- Modelled from the spec: `Node::depthFirstTraversal` (body in the
missing `.C` file), specialized to visitors whose `postVisit` always
returns CONTINUE and whose `preVisit` never returns TERMINATE, which is the
case for the two visitors of the header's template functions.  `preVisit`
returns the updated visitor state together with `true` for CONTINUE
(descend into the children, left to right, threading the state) or `false`
for TRUNCATE (skip the children).  The fuel argument bounds the recursion
depth; any sufficiently large bound gives the traversal of the acyclic
sharing graph. -/
def dfs {σ : Type} (store : List DagNode) (pre : σ → Nat → σ × Bool) :
    Nat → σ → Nat → σ
  | 0, s, _ => s
  | fuel + 1, s, i =>
      match pre s i with
      | (s', false) => s'
      | (s', true) =>
          (childIndices store i).foldl (fun acc j => dfs store pre fuel acc j) s'

/-- Traverse a collection of root expressions in order, threading the
visitor state (the loops at header lines 1143-1145 and 1177-1178; the
TERMINATE early exit never fires for these visitors). -/
def dfsRoots {σ : Type} (store : List DagNode) (pre : σ → Nat → σ × Bool)
    (fuel : Nat) (s : σ) (roots : List Nat) : σ :=
  roots.foldl (fun acc r => dfs store pre fuel acc r) s

/-- The `T1::preVisit` visitor of `nNodesUnique` (header lines 1129-1136):
state is the set of node objects already seen (as a list of identities)
with the count of unique nodes; a node not seen before is inserted and
counted and its children are visited, a node already seen is skipped
(TRUNCATE). -/
def uniqueVisit : List Nat × Nat → Nat → (List Nat × Nat) × Bool :=
  fun sn i =>
    if sn.1.contains i then (sn, false)
    else ((i :: sn.1, sn.2 + 1), true)

/-- Counts the number of unique nodes across a number of expressions; nodes
shared between two expressions are counted only one time (free template
function `nNodesUnique`, header lines 1117-1147). -/
def nNodesUnique (store : List DagNode) (fuel : Nat) (roots : List Nat) : Nat :=
  (dfsRoots store uniqueVisit fuel ([], 0) roots).2

/-- The `T1::preVisit` visitor of `findCommonSubexpressions` (header lines
1165-1170): the state is the chronological list of visited nodes (so that
`nodeCounts` is recovered by counting occurrences) together with the result
vector; a node is appended to the result exactly when its visit count
reaches 2, and the traversal descends only on the first visit. -/
def fcsVisit : List Nat × List Nat → Nat → (List Nat × List Nat) × Bool :=
  fun vr i =>
    let nSeen := vr.1.count i + 1
    ((i :: vr.1, if nSeen == 2 then vr.2 ++ [i] else vr.2), nSeen == 1)

/-- Find common subexpressions over a collection of expressions (free
template function `findCommonSubexpressions`, header lines 1157-1180). -/
def findCommonSubexpressions (store : List DagNode) (fuel : Nat)
    (roots : List Nat) : List Nat :=
  (dfsRoots store fcsVisit fuel ([], []) roots).2

/-- Chronological pre-visit list of the `findCommonSubexpressions`
traversal (most recent first). -/
def fcsVisited (store : List DagNode) (fuel : Nat) (roots : List Nat) : List Nat :=
  (dfsRoots store fcsVisit fuel ([], []) roots).1

/-- Does node `j` occur strictly inside the subtree rooted at node `i`?
(`A` contains `B` in the sense of the common-subexpression ordering.) -/
def occursIn (store : List DagNode) : Nat → Nat → Nat → Bool
  | 0, _, _ => false
  | fuel + 1, i, j =>
      (childIndices store i).any (fun c => c == j || occursIn store fuel c j)

/-- Does `x` occur strictly before the first occurrence of `y` in `l`? -/
def listBefore : List Nat → Nat → Nat → Bool
  | [], _, _ => false
  | a :: rest, x, y =>
      if a == x then rest.contains y
      else if a == y then false
      else listBefore rest x y

theorem opOfIndex_opIndex (o : Operator) : opOfIndex (opIndex o) = o := by
  cases o <;> rfl

theorem opIndex_injective {o₁ o₂ : Operator} (h : opIndex o₁ = opIndex o₂) : o₁ = o₂ := by
  have := congrArg opOfIndex h
  rwa [opOfIndex_opIndex, opOfIndex_opIndex] at this

mutual

theorem isEquivalentTo_iff_eq : (a b : Expr) → (isEquivalentTo a b = true ↔ a = b)
  | .const _ _ _, b => by cases b <;> (simp [isEquivalentTo]; try omega)
  | .var _ _ _, b => by cases b <;> (simp [isEquivalentTo]; try omega)
  | .mem _ _ _ _, b => by cases b <;> (simp [isEquivalentTo]; try omega)
  | .interior o w f c, b => by
      cases b with
      | const _ _ _ => simp [isEquivalentTo]
      | var _ _ _ => simp [isEquivalentTo]
      | mem _ _ _ _ => simp [isEquivalentTo]
      | interior o' w' f' c' =>
        simp only [isEquivalentTo, Bool.and_eq_true, beq_iff_eq,
          equivList_iff_eq c c', Expr.interior.injEq]
        tauto

theorem equivList_iff_eq : (xs ys : List Expr) → (equivList xs ys = true ↔ xs = ys)
  | [], ys => by cases ys <;> simp [equivList]
  | _ :: _, [] => by simp [equivList]
  | x :: xs, y :: ys => by
      simp [equivList, isEquivalentTo_iff_eq x y, equivList_iff_eq xs ys]

end

theorem isEquivalentTo_refl (a : Expr) : isEquivalentTo a a = true :=
  (isEquivalentTo_iff_eq a a).mpr rfl

theorem cmpList_cons (x y : Expr) (xs ys : List Expr) :
    cmpList (x :: xs) (y :: ys) = (cmpE x y).then (cmpList xs ys) := rfl

theorem natCompare_swap (a b : Nat) : (compare a b).swap = compare b a := by
  rcases Nat.lt_trichotomy a b with h | h | h
  · rw [Nat.compare_eq_lt.2 h, Nat.compare_eq_gt.2 h]; rfl
  · rw [h, Nat.compare_eq_eq.2 rfl]; rfl
  · rw [Nat.compare_eq_gt.2 h, Nat.compare_eq_lt.2 h]; rfl

/-- Transitivity step for a lexicographic pair whose first component is a
`Nat` comparison. -/
theorem then_compare_trans {ka kb kc : Nat} {x y z : Ordering}
    (h₁ : (compare ka kb).then x = .lt) (h₂ : (compare kb kc).then y = .lt)
    (hcont : ka = kb → kb = kc → x = .lt → y = .lt → z = .lt) :
    (compare ka kc).then z = .lt := by
  rcases Ordering.then_eq_lt.1 h₁ with h | ⟨he, hx⟩
  · have hab : ka < kb := Nat.compare_eq_lt.1 h
    have hbc : kb ≤ kc := by
      rcases Ordering.then_eq_lt.1 h₂ with h' | ⟨he', _⟩
      · exact Nat.le_of_lt (Nat.compare_eq_lt.1 h')
      · exact Nat.le_of_eq (Nat.compare_eq_eq.1 he')
    rw [Nat.compare_eq_lt.2 (Nat.lt_of_lt_of_le hab hbc)]; rfl
  · have hab : ka = kb := Nat.compare_eq_eq.1 he
    subst hab
    rcases Ordering.then_eq_lt.1 h₂ with h' | ⟨he', hy⟩
    · rw [Nat.compare_eq_lt.2 (Nat.compare_eq_lt.1 h')]; rfl
    · have hbc : ka = kc := Nat.compare_eq_eq.1 he'
      subst hbc
      rw [Nat.compare_eq_eq.2 rfl, hcont rfl rfl hx hy]; rfl

/-- Induction principle for `Expr` that provides the inductive hypothesis
for every member of an interior node's child list. -/
theorem Expr.inducList {motive : Expr → Prop}
    (hconst : ∀ w v f, motive (.const w v f))
    (hvar : ∀ w i f, motive (.var w i f))
    (hmem : ∀ d w i f, motive (.mem d w i f))
    (hint : ∀ o w f c, (∀ x ∈ c, motive x) → motive (.interior o w f c)) :
    ∀ e, motive e
  | .const w v f => hconst w v f
  | .var w i f => hvar w i f
  | .mem d w i f => hmem d w i f
  | .interior o w f c =>
      hint o w f c (fun x hx =>
        have : sizeOf x < sizeOf (Expr.interior o w f c) := by
          have h := List.sizeOf_lt_of_mem hx
          simp only [Expr.interior.sizeOf_spec]
          omega
        Expr.inducList hconst hvar hmem hint x)
termination_by e => sizeOf e

theorem cmpList_eq_iff_of {xs : List Expr}
    (ih : ∀ x ∈ xs, ∀ b, cmpE x b = .eq ↔ x = b) :
    ∀ ys, cmpList xs ys = .eq ↔ xs = ys := by
  induction xs with
  | nil => intro ys; cases ys <;> simp [cmpList]
  | cons x xs ihx =>
    intro ys
    cases ys with
    | nil => simp [cmpList]
    | cons y ys =>
      rw [cmpList_cons]
      simp only [Ordering.then_eq_eq, ih x (List.mem_cons_self x xs) y,
        ihx (fun z hz b => ih z (List.mem_cons_of_mem x hz) b) ys, List.cons.injEq]

theorem cmpE_eq_iff : ∀ a b : Expr, cmpE a b = .eq ↔ a = b := by
  intro a
  induction a using Expr.inducList with
  | hconst w v f =>
    intro b
    cases b <;>
      (simp [cmpE, cmpSame, kindTag, Ordering.then_eq_eq, Nat.compare_eq_eq]; try omega)
  | hvar w i f =>
    intro b
    cases b <;>
      (simp [cmpE, cmpSame, kindTag, Ordering.then_eq_eq, Nat.compare_eq_eq]; try omega)
  | hmem d w i f =>
    intro b
    cases b <;>
      (simp [cmpE, cmpSame, kindTag, Ordering.then_eq_eq, Nat.compare_eq_eq]; try omega)
  | hint o w f c ih =>
    intro b
    cases b with
    | const _ _ _ => simp [cmpE, cmpSame, kindTag, Ordering.then_eq_eq, Nat.compare_eq_eq]
    | var _ _ _ => simp [cmpE, cmpSame, kindTag, Ordering.then_eq_eq, Nat.compare_eq_eq]
    | mem _ _ _ _ => simp [cmpE, cmpSame, kindTag, Ordering.then_eq_eq, Nat.compare_eq_eq]
    | interior o' w' f' c' =>
      simp only [cmpE, cmpSame, kindTag, Ordering.then_eq_eq, Nat.compare_eq_eq,
        cmpList_eq_iff_of ih c', Expr.interior.injEq, true_and]
      constructor
      · rintro ⟨h₁, h₂, h₃, h₄⟩; exact ⟨opIndex_injective h₁, h₂, h₃, h₄⟩
      · rintro ⟨h₁, h₂, h₃, h₄⟩; exact ⟨by rw [h₁], h₂, h₃, h₄⟩

theorem cmpE_refl (a : Expr) : cmpE a a = .eq := (cmpE_eq_iff a a).mpr rfl

theorem cmpList_swap_of {xs : List Expr}
    (ih : ∀ x ∈ xs, ∀ b, (cmpE x b).swap = cmpE b x) :
    ∀ ys, (cmpList xs ys).swap = cmpList ys xs := by
  induction xs with
  | nil => intro ys; cases ys <;> rfl
  | cons x xs ihx =>
    intro ys
    cases ys with
    | nil => rfl
    | cons y ys =>
      rw [cmpList_cons, cmpList_cons, Ordering.swap_then,
        ih x (List.mem_cons_self x xs) y,
        ihx (fun z hz b => ih z (List.mem_cons_of_mem x hz) b) ys]

theorem ordering_eq_swap : (Ordering.eq).swap = Ordering.eq := rfl

theorem cmpE_swap : ∀ a b : Expr, (cmpE a b).swap = cmpE b a := by
  intro a
  induction a using Expr.inducList with
  | hconst w v f =>
    intro b
    cases b <;> simp [cmpE, cmpSame, Ordering.swap_then, natCompare_swap, ordering_eq_swap]
  | hvar w i f =>
    intro b
    cases b <;> simp [cmpE, cmpSame, Ordering.swap_then, natCompare_swap, ordering_eq_swap]
  | hmem d w i f =>
    intro b
    cases b <;> simp [cmpE, cmpSame, Ordering.swap_then, natCompare_swap, ordering_eq_swap]
  | hint o w f c ih =>
    intro b
    cases b with
    | const _ _ _ => simp [cmpE, cmpSame, Ordering.swap_then, natCompare_swap, ordering_eq_swap]
    | var _ _ _ => simp [cmpE, cmpSame, Ordering.swap_then, natCompare_swap, ordering_eq_swap]
    | mem _ _ _ _ => simp [cmpE, cmpSame, Ordering.swap_then, natCompare_swap, ordering_eq_swap]
    | interior o' w' f' c' =>
      simp [cmpE, cmpSame, Ordering.swap_then, natCompare_swap, cmpList_swap_of ih c']

theorem cmpList_lt_trans_of {xs : List Expr}
    (ih : ∀ x ∈ xs, ∀ b c, cmpE x b = .lt → cmpE b c = .lt → cmpE x c = .lt) :
    ∀ ys zs, cmpList xs ys = .lt → cmpList ys zs = .lt → cmpList xs zs = .lt := by
  induction xs with
  | nil =>
    intro ys zs h₁ h₂
    cases ys with
    | nil => simp [cmpList] at h₁
    | cons y ys =>
      cases zs with
      | nil => simp [cmpList] at h₂
      | cons z zs => simp [cmpList]
  | cons x xs ihx =>
    intro ys zs h₁ h₂
    cases ys with
    | nil => simp [cmpList] at h₁
    | cons y ys =>
      cases zs with
      | nil => simp [cmpList] at h₂
      | cons z zs =>
        rw [cmpList_cons] at h₁ h₂ ⊢
        rcases Ordering.then_eq_lt.1 h₁ with hxy | ⟨hxy, ht₁⟩
        · rcases Ordering.then_eq_lt.1 h₂ with hyz | ⟨hyz, ht₂⟩
          · rw [ih x (List.mem_cons_self x xs) y z hxy hyz]; rfl
          · rw [(cmpE_eq_iff y z).1 hyz] at hxy; rw [hxy]; rfl
        · have hxy' : x = y := (cmpE_eq_iff x y).1 hxy
          subst hxy'
          rcases Ordering.then_eq_lt.1 h₂ with hyz | ⟨hyz, ht₂⟩
          · rw [hyz]; rfl
          · have hxz : x = z := (cmpE_eq_iff x z).1 hyz
            subst hxz
            rw [cmpE_refl]
            exact ihx (fun u hu => ih u (List.mem_cons_of_mem x hu)) ys zs ht₁ ht₂

theorem cmpE_lt_trans : ∀ a b c : Expr, cmpE a b = .lt → cmpE b c = .lt → cmpE a c = .lt := by
  intro a
  induction a using Expr.inducList with
  | hconst w v f =>
    intro b c h₁ h₂
    simp only [cmpE] at h₁ h₂ ⊢
    refine then_compare_trans h₁ h₂ (fun ht₁ ht₂ hs₁ hs₂ => ?_)
    cases b <;> simp [kindTag] at ht₁
    cases c <;> simp [kindTag] at ht₂
    simp only [cmpSame] at hs₁ hs₂ ⊢
    refine then_compare_trans hs₁ hs₂ (fun _ _ hx hy => ?_)
    refine then_compare_trans hx hy (fun _ _ hv hw => ?_)
    exact Nat.compare_eq_lt.2 (Nat.lt_trans (Nat.compare_eq_lt.1 hv) (Nat.compare_eq_lt.1 hw))
  | hvar w i f =>
    intro b c h₁ h₂
    simp only [cmpE] at h₁ h₂ ⊢
    refine then_compare_trans h₁ h₂ (fun ht₁ ht₂ hs₁ hs₂ => ?_)
    cases b <;> simp [kindTag] at ht₁
    cases c <;> simp [kindTag] at ht₂
    simp only [cmpSame] at hs₁ hs₂ ⊢
    refine then_compare_trans hs₁ hs₂ (fun _ _ hx hy => ?_)
    refine then_compare_trans hx hy (fun _ _ hv hw => ?_)
    exact Nat.compare_eq_lt.2 (Nat.lt_trans (Nat.compare_eq_lt.1 hv) (Nat.compare_eq_lt.1 hw))
  | hmem d w i f =>
    intro b c h₁ h₂
    simp only [cmpE] at h₁ h₂ ⊢
    refine then_compare_trans h₁ h₂ (fun ht₁ ht₂ hs₁ hs₂ => ?_)
    cases b <;> simp [kindTag] at ht₁
    cases c <;> simp [kindTag] at ht₂
    simp only [cmpSame] at hs₁ hs₂ ⊢
    refine then_compare_trans hs₁ hs₂ (fun _ _ hx hy => ?_)
    refine then_compare_trans hx hy (fun _ _ hv hw => ?_)
    refine then_compare_trans hv hw (fun _ _ hm hn => ?_)
    exact Nat.compare_eq_lt.2 (Nat.lt_trans (Nat.compare_eq_lt.1 hm) (Nat.compare_eq_lt.1 hn))
  | hint o w f cs ih =>
    intro b c h₁ h₂
    simp only [cmpE] at h₁ h₂ ⊢
    refine then_compare_trans h₁ h₂ (fun ht₁ ht₂ hs₁ hs₂ => ?_)
    cases b <;> simp [kindTag] at ht₁
    cases c <;> simp [kindTag] at ht₂
    simp only [cmpSame] at hs₁ hs₂ ⊢
    refine then_compare_trans hs₁ hs₂ (fun _ _ hx hy => ?_)
    refine then_compare_trans hx hy (fun _ _ hv hw => ?_)
    refine then_compare_trans hv hw (fun _ _ hm hn => ?_)
    exact cmpList_lt_trans_of ih _ _ hm hn

theorem childCmp_swap (a b : Expr) : (childCmp a b).swap = childCmp b a := by
  simp [childCmp, Ordering.swap_then, natCompare_swap, cmpE_swap]

theorem childCmp_eq_iff (a b : Expr) : childCmp a b = .eq ↔ a = b := by
  constructor
  · intro h
    rcases Ordering.then_eq_eq.1 h with ⟨-, h₂⟩
    exact (cmpE_eq_iff a b).1 h₂
  · rintro rfl
    simp only [childCmp, cmpE_refl, Nat.compare_eq_eq.2 rfl]
    rfl

theorem childCmp_lt_trans {a b c : Expr} (h₁ : childCmp a b = .lt)
    (h₂ : childCmp b c = .lt) : childCmp a c = .lt := by
  exact then_compare_trans h₁ h₂ (fun _ _ hx hy => cmpE_lt_trans a b c hx hy)

theorem childLe_iff (a b : Expr) : childLe a b = true ↔ childCmp a b ≠ .gt := by
  cases h : childCmp a b <;> simp [childLe, h]

theorem childLe_total (a b : Expr) : childLe a b = true ∨ childLe b a = true := by
  rw [childLe_iff, childLe_iff]
  cases h : childCmp a b with
  | lt => left; simp [h]
  | eq => left; simp [h]
  | gt =>
    right
    rw [← childCmp_swap a b, h]
    simp [Ordering.swap]

theorem childLe_trans {a b c : Expr} (h₁ : childLe a b = true)
    (h₂ : childLe b c = true) : childLe a c = true := by
  rw [childLe_iff] at h₁ h₂ ⊢
  cases hab : childCmp a b with
  | gt => exact absurd hab h₁
  | eq =>
    rw [(childCmp_eq_iff a b).1 hab]
    exact h₂
  | lt =>
    cases hbc : childCmp b c with
    | gt => exact absurd hbc h₂
    | eq => rw [← (childCmp_eq_iff b c).1 hbc]; simp [hab]
    | lt => simp [childCmp_lt_trans hab hbc]

theorem childLe_antisymm {a b : Expr} (h₁ : childLe a b = true)
    (h₂ : childLe b a = true) : a = b := by
  rw [childLe_iff] at h₁ h₂
  rw [← childCmp_swap a b] at h₂
  apply (childCmp_eq_iff a b).1
  cases h : childCmp a b with
  | eq => rfl
  | lt => rw [h] at h₂; exact absurd rfl h₂
  | gt => exact absurd h h₁

theorem commutative_eq_of_perm {l₁ l₂ : List Expr} (h : l₁.Perm l₂) :
    commutative l₁ = commutative l₂ := by
  haveI : IsTotal Expr childLeP := ⟨childLe_total⟩
  haveI : IsTrans Expr childLeP := ⟨fun _ _ _ => childLe_trans⟩
  haveI : IsAntisymm Expr childLeP := ⟨fun _ _ => childLe_antisymm⟩
  exact List.eq_of_perm_of_sorted
    ((List.perm_insertionSort childLeP l₁).trans
      (h.trans (List.perm_insertionSort childLeP l₂).symm))
    (List.sorted_insertionSort childLeP l₁)
    (List.sorted_insertionSort childLeP l₂)

/-- C4: `compareStructure` returns -1, 0 or 1; it returns 0 exactly when
`isEquivalentTo` returns true; it is antisymmetric and transitive, hence a
total order on the quotient of expressions by structural equivalence. -/
theorem claim4_compareStructure_total_order :
    (∀ a b : Expr, compareStructure a b = 0 ↔ isEquivalentTo a b = true)
    ∧ (∀ a b : Expr,
        compareStructure a b = -1 ∨ compareStructure a b = 0 ∨ compareStructure a b = 1)
    ∧ (∀ a b : Expr, compareStructure b a = -compareStructure a b)
    ∧ (∀ a b c : Expr, compareStructure a b = -1 → compareStructure b c = -1 →
        compareStructure a c = -1) := by
  refine ⟨?_, ?_, ?_, ?_⟩
  · intro a b
    rw [isEquivalentTo_iff_eq, ← cmpE_eq_iff]
    cases h : cmpE a b <;> simp [compareStructure, h]
  · intro a b
    cases h : cmpE a b <;> simp [compareStructure, h]
  · intro a b
    have hs := cmpE_swap a b
    cases h : cmpE a b <;> (rw [h] at hs; simp [compareStructure, h, ← hs, Ordering.swap])
  · intro a b c h₁ h₂
    have hab : cmpE a b = .lt := by
      cases h : cmpE a b <;> (simp [compareStructure, h] at h₁; try rfl)
    have hbc : cmpE b c = .lt := by
      cases h : cmpE b c <;> (simp [compareStructure, h] at h₂; try rfl)
    simp [compareStructure, cmpE_lt_trans a b c hab hbc]

/-- Witness for C4: the transitivity component applied at concrete inputs
for which both hypotheses hold. -/
theorem claim4_witness :
    compareStructure (Expr.const 8 0 0) (Expr.const 8 2 0) = -1 :=
  claim4_compareStructure_total_order.2.2.2
    (Expr.const 8 0 0) (Expr.const 8 1 0) (Expr.const 8 2 0)
    (by decide) (by decide)

/-- C2: without a solver, `mustEqual` returns true exactly when the two
nodes are structurally equivalent or both are known numeric constants with
equal numeric values, independent of their widths; in particular a 4-bit
constant 0 must equal a 16-bit constant 0. -/
theorem claim2_mustEqual_structural_or_numeric :
    (∀ a b : Expr, mustEqual a b = true ↔
      (isEquivalentTo a b = true
        ∨ (a.isNumber = true ∧ b.isNumber = true ∧ a.toInt = b.toInt)))
    ∧ mustEqual (Expr.createInteger 4 0) (Expr.createInteger 16 0) = true := by
  constructor
  · intro a b
    by_cases hn : (a.isNumber && b.isNumber) = true
    · obtain ⟨ha, hb⟩ : a.isNumber = true ∧ b.isNumber = true := by simpa using hn
      simp [mustEqual, hn, ha, hb, beq_iff_eq]
      intro h
      rw [(isEquivalentTo_iff_eq a b).1 h]
    · simp only [mustEqual, hn, if_false]
      have : ¬(a.isNumber = true ∧ b.isNumber = true ∧ a.toInt = b.toInt) := by
        intro ⟨ha, hb, _⟩
        exact hn (by simp [ha, hb])
      tauto
  · decide

/-- C6: the hash value 0 is the "not yet computed" sentinel: `isHashed`
returns true exactly when the cached hash is nonzero; a cached hash is
returned unchanged; a computed hash of 0 is never stored, so such a node
recomputes on every call; a nonzero computed hash is cached on first
computation and returned unchanged by any later call. -/
theorem claim6_hash_zero_sentinel :
    (∀ s : HashState, isHashed s = true ↔ s.hashval ≠ 0)
    ∧ (∀ c s, s.hashval ≠ 0 → hashCall c s = (s.hashval, s))
    ∧ (∀ c s, s.hashval = 0 → c = 0 → hashCall c s = (0, s))
    ∧ (∀ c c' s, s.hashval = 0 → c ≠ 0 →
        hashCall c s = (c, ⟨c⟩) ∧ hashCall c' ⟨c⟩ = (c, ⟨c⟩)) := by
  refine ⟨?_, ?_, ?_, ?_⟩
  · intro s; simp [isHashed]
  · intro c s h; simp [hashCall, h]
  · intro c s hs hc; subst hc; simp [hashCall, hs]
  · intro c c' s hs hc
    constructor
    · simp [hashCall, hs, hc]
    · simp [hashCall, hc]

/-- Witness for C6: the claim applied to a node whose hash has not been
computed yet and a nonzero computed hash. -/
theorem claim6_witness :
    hashCall 5 ⟨0⟩ = (5, ⟨5⟩) ∧ hashCall 9 ⟨5⟩ = (5, ⟨5⟩) :=
  claim6_hash_zero_sentinel.2.2.2 5 9 ⟨0⟩ rfl (by decide)

theorem nNodesLoop_spec :
    ∀ (counts : List Nat) (total : Nat), total < 2 ^ 64 →
      (∀ n ∈ counts, n < 2 ^ 64) →
      (((∀ n ∈ counts, n ≠ MAX_NNODES) → total + counts.sum < 2 ^ 64 →
          nNodesLoop total counts = total + counts.sum)
        ∧ (((∃ n ∈ counts, n = MAX_NNODES) ∨ 2 ^ 64 ≤ total + counts.sum) →
          nNodesLoop total counts = MAX_NNODES)) := by
  intro counts
  induction counts with
  | nil =>
    intro total htot _
    refine ⟨fun _ _ => by simp [nNodesLoop], ?_⟩
    rintro (⟨n, hn, _⟩ | hsum)
    · exact absurd hn (List.not_mem_nil n)
    · simp at hsum; omega
  | cons n rest ih =>
    intro total htot hbound
    have hn : n < 2 ^ 64 := hbound n (List.mem_cons_self n rest)
    have hrest : ∀ m ∈ rest, m < 2 ^ 64 :=
      fun m hm => hbound m (List.mem_cons_of_mem n hm)
    by_cases hmax : n = MAX_NNODES
    · refine ⟨?_, ?_⟩
      · intro hne _
        exact absurd hmax (hne n (List.mem_cons_self n rest))
      · intro _
        simp [nNodesLoop, hmax]
    · by_cases hovf : (total + n) % 2 ^ 64 < total
      · have hge : 2 ^ 64 ≤ total + n := by omega
        refine ⟨?_, ?_⟩
        · intro _ hsum
          simp only [List.sum_cons] at hsum
          omega
        · intro _
          rw [nNodesLoop, if_neg hmax, if_pos hovf]
      · have hlt : total + n < 2 ^ 64 := by omega
        have hmod : (total + n) % 2 ^ 64 = total + n := Nat.mod_eq_of_lt hlt
        have hrec := ih (total + n) hlt hrest
        refine ⟨?_, ?_⟩
        · intro hne hsum
          simp only [List.sum_cons] at hsum
          rw [nNodesLoop, if_neg hmax, if_neg hovf, hmod]
          rw [hrec.1 (fun m hm => hne m (List.mem_cons_of_mem n hm)) (by omega)]
          simp [List.sum_cons]
          omega
        · intro hcase
          rw [nNodesLoop, if_neg hmax, if_neg hovf, hmod]
          apply hrec.2
          rcases hcase with ⟨m, hm, hmeq⟩ | hsum
          · rcases List.mem_cons.1 hm with rfl | hm'
            · exact absurd hmeq hmax
            · exact Or.inl ⟨m, hm', hmeq⟩
          · simp only [List.sum_cons] at hsum
            right; omega

/-- C7: over per-expression node counts that fit in 64 bits, the free
function `nNodes` returns the exact sum when no count is the sentinel and
the running 64-bit sum does not overflow, and returns the sentinel
`MAX_NNODES` (without failing) whenever any expression reports `MAX_NNODES`
or the sum would overflow. -/
theorem claim7_nNodes_saturating :
    ∀ counts : List Nat, (∀ n ∈ counts, n < 2 ^ 64) →
      (((∀ n ∈ counts, n ≠ MAX_NNODES) → counts.sum < 2 ^ 64 →
          nNodes counts = counts.sum)
        ∧ (((∃ n ∈ counts, n = MAX_NNODES) ∨ 2 ^ 64 ≤ counts.sum) →
          nNodes counts = MAX_NNODES)) := by
  intro counts hbound
  have h := nNodesLoop_spec counts 0 (by positivity) hbound
  simpa [nNodes] using h

/-- Witness for C7: the exact-sum component at a small list, and the
saturating component at a list whose running sum overflows. -/
theorem claim7_witness :
    nNodes [3, 4] = 7 ∧ nNodes [2 ^ 63, 2 ^ 63] = MAX_NNODES := by
  constructor
  · have := (claim7_nNodes_saturating [3, 4] (by decide)).1
      (by decide) (by norm_num)
    simpa using this
  · have := (claim7_nNodes_saturating [2 ^ 63, 2 ^ 63]
      (by norm_num)).2 (by right; norm_num [List.sum_cons])
    simpa using this

/-- C8: for every shift or rotate operator the constructed node's width
equals the width of the shifted operand, and the shift amount is an
unsigned quantity effectively taken modulo that width: the numeric
semantics is invariant under reducing the amount modulo the width (and
under adding the width to the amount), and the result always fits in the
operand's width. -/
theorem claim8_shift_width_and_modulo :
    (∀ (op : Operator) (sa b : Expr), isShiftOp op = true →
      (makeShift op sa b).nBits = b.nBits)
    ∧ (∀ (op : Operator) (w sa a : Nat), isShiftOp op = true → 0 < w → a < 2 ^ w →
        evalShift op w sa a < 2 ^ w
        ∧ evalShift op w sa a = evalShift op w (sa % w) a
        ∧ evalShift op w (sa + w) a = evalShift op w sa a) := by
  constructor
  · intro op sa b _
    cases h : (sa.isNumber && b.isNumber) <;> simp [makeShift, h, Expr.nBits]
  · intro op w sa a hop hw ha
    have hs : sa % w < w := Nat.mod_lt _ hw
    have hpos : ∀ k : Nat, 0 < 2 ^ k := fun k => pow_pos (by norm_num) k
    have hpow : 2 ^ (w - sa % w) * 2 ^ (sa % w) = 2 ^ w := by
      rw [← pow_add]; congr 1; omega
    have hpow' : 2 ^ (sa % w) * 2 ^ (w - sa % w) = 2 ^ w := by
      rw [← pow_add]; congr 1; omega
    have hdivlo : a / 2 ^ (sa % w) < 2 ^ (w - sa % w) := by
      rw [Nat.div_lt_iff_lt_mul (hpos _)]
      calc a < 2 ^ w := ha
        _ = 2 ^ (w - sa % w) * 2 ^ (sa % w) := hpow.symm
    have hdivhi : a / 2 ^ (w - sa % w) < 2 ^ (sa % w) := by
      rw [Nat.div_lt_iff_lt_mul (hpos _)]
      calc a < 2 ^ w := ha
        _ = 2 ^ (sa % w) * 2 ^ (w - sa % w) := hpow'.symm
    refine ⟨?_, ?_, ?_⟩
    · cases op
      case SHL0 => exact Nat.mod_lt _ (hpos w)
      case SHL1 => exact Nat.mod_lt _ (hpos w)
      case SHR0 =>
        exact lt_of_le_of_lt (Nat.div_le_self a _) ha
      case SHR1 =>
        show a / 2 ^ (sa % w) + (2 ^ w - 2 ^ (w - sa % w)) < 2 ^ w
        have hle : 2 ^ (w - sa % w) ≤ 2 ^ w :=
          Nat.pow_le_pow_right (by norm_num) (Nat.sub_le _ _)
        have h1 := hpos (w - sa % w)
        omega
      case ASR =>
        show a / 2 ^ (sa % w) +
          (if 2 ^ (w - 1) ≤ a then 2 ^ w - 2 ^ (w - sa % w) else 0) < 2 ^ w
        have hle : 2 ^ (w - sa % w) ≤ 2 ^ w :=
          Nat.pow_le_pow_right (by norm_num) (Nat.sub_le _ _)
        have h1 := hpos (w - sa % w)
        have h2 : a / 2 ^ (sa % w) ≤ a := Nat.div_le_self a _
        split <;> omega
      case ROL =>
        show (a % 2 ^ (w - sa % w)) * 2 ^ (sa % w) + a / 2 ^ (w - sa % w) < 2 ^ w
        have h1 : a % 2 ^ (w - sa % w) + 1 ≤ 2 ^ (w - sa % w) :=
          Nat.mod_lt _ (hpos _)
        have h3 : (a % 2 ^ (w - sa % w)) * 2 ^ (sa % w) + 2 ^ (sa % w)
            ≤ 2 ^ w := by
          calc (a % 2 ^ (w - sa % w)) * 2 ^ (sa % w) + 2 ^ (sa % w)
              = (a % 2 ^ (w - sa % w) + 1) * 2 ^ (sa % w) := by ring
            _ ≤ 2 ^ (w - sa % w) * 2 ^ (sa % w) := Nat.mul_le_mul_right _ h1
            _ = 2 ^ w := hpow
        omega
      case ROR =>
        show (a % 2 ^ (sa % w)) * 2 ^ (w - sa % w) + a / 2 ^ (sa % w) < 2 ^ w
        have h1 : a % 2 ^ (sa % w) + 1 ≤ 2 ^ (sa % w) := Nat.mod_lt _ (hpos _)
        have h3 : (a % 2 ^ (sa % w)) * 2 ^ (w - sa % w) + 2 ^ (w - sa % w)
            ≤ 2 ^ w := by
          calc (a % 2 ^ (sa % w)) * 2 ^ (w - sa % w) + 2 ^ (w - sa % w)
              = (a % 2 ^ (sa % w) + 1) * 2 ^ (w - sa % w) := by ring
            _ ≤ 2 ^ (sa % w) * 2 ^ (w - sa % w) := Nat.mul_le_mul_right _ h1
            _ = 2 ^ w := hpow'
        omega
      all_goals simp [isShiftOp] at hop
    · simp only [evalShift, Nat.mod_eq_of_lt hs]
    · simp only [evalShift, Nat.add_mod_right]

/-- Witness for C8: both components applied at a concrete rotate-right of
the 8-bit value 200 by 11 (which acts as a rotation by 3). -/
theorem claim8_witness :
    (makeShift .ROR (Expr.createInteger 8 11) (Expr.var 8 1 0)).nBits
        = (Expr.var 8 1 0).nBits
    ∧ (evalShift .ROR 8 11 200 < 2 ^ 8
        ∧ evalShift .ROR 8 11 200 = evalShift .ROR 8 (11 % 8) 200
        ∧ evalShift .ROR 8 (11 + 8) 200 = evalShift .ROR 8 11 200) :=
  ⟨claim8_shift_width_and_modulo.1 .ROR (Expr.createInteger 8 11) (Expr.var 8 1 0) rfl,
   claim8_shift_width_and_modulo.2 .ROR 8 11 200 rfl (by norm_num) (by norm_num)⟩

theorem associative_cons (op : Operator) (x : Expr) (l : List Expr) :
    associative op (x :: l)
      = (match x with
          | .interior o _ _ cs => if o = op then cs else [x]
          | _ => [x]) ++ associative op l := by
  cases x with
  | interior o w f cs =>
    by_cases h : o = op <;> simp [associative, h]
  | const w v f => simp [associative]
  | var w i f => simp [associative]
  | mem d w i f => simp [associative]

theorem associative_perm_of_perm (op : Operator) {l₁ l₂ : List Expr}
    (h : l₁.Perm l₂) : (associative op l₁).Perm (associative op l₂) := by
  induction h with
  | nil => exact List.Perm.refl _
  | cons x _ ih =>
    simp only [associative_cons]
    exact ih.append_left _
  | swap x y l =>
    simp only [associative_cons, ← List.append_assoc]
    exact (List.perm_append_comm).append_right _
  | trans _ _ ih₁ ih₂ => exact ih₁.trans ih₂

theorem makeAdd_const0 (w x y : Nat) :
    makeAdd (Expr.const w x 0) (Expr.const w y 0) = Expr.const w ((x + y) % 2 ^ w) 0 := by
  show finalizeNode .ADD w (removeIdentity 0 (foldAdd w
    (commutative (associative .ADD [Expr.const w x 0, Expr.const w y 0])))) = _
  have hassoc : associative .ADD [Expr.const w x 0, Expr.const w y 0]
      = [Expr.const w x 0, Expr.const w y 0] := by simp [associative]
  rw [hassoc]
  by_cases h : childLeP (Expr.const w x 0) (Expr.const w y 0)
  · have hc : commutative [Expr.const w x 0, Expr.const w y 0]
        = [Expr.const w x 0, Expr.const w y 0] := by
      simp [commutative, List.insertionSort, List.orderedInsert, h]
    rw [hc]
    by_cases hz : (x + y) % 2 ^ w = 0
    · simp [foldAdd, isConstE, Expr.toInt, unionFlags, Expr.flags,
        removeIdentity, finalizeNode, hz]
    · simp [foldAdd, isConstE, Expr.toInt, unionFlags, Expr.flags,
        removeIdentity, finalizeNode, hz]
  · have hc : commutative [Expr.const w x 0, Expr.const w y 0]
        = [Expr.const w y 0, Expr.const w x 0] := by
      simp [commutative, List.insertionSort, List.orderedInsert, h]
    rw [hc]
    rw [Nat.add_comm x y]
    by_cases hz : (y + x) % 2 ^ w = 0
    · simp [foldAdd, isConstE, Expr.toInt, unionFlags, Expr.flags,
        removeIdentity, finalizeNode, hz]
    · simp [foldAdd, isConstE, Expr.toInt, unionFlags, Expr.flags,
        removeIdentity, finalizeNode, hz]

/-- C1: building `EQ(ADD(v1, const(32,1)), ADD(const(32,1), v1))` for any
32-bit variable `v1` with no solver folds to the 1-bit Boolean constant
true: commutative canonicalization makes the two ADD operands structurally
identical, and the reflexive-equality rewrite folds the comparison.  The
second component is the general commutative-canonicalization property:
`build(ADD, a, b)` equals `build(ADD, b, a)` for operands of equal width. -/
theorem claim1_eq_add_commutative_reflexive_fold :
    (∀ n : Nat,
      makeEq (makeAdd (Expr.var 32 n 0) (Expr.createInteger 32 1))
             (makeAdd (Expr.createInteger 32 1) (Expr.var 32 n 0))
        = Expr.createBoolean true)
    ∧ (∀ a b : Expr, a.nBits = b.nBits → makeAdd a b = makeAdd b a) := by
  constructor
  · intro n
    have h1 : makeAdd (Expr.var 32 n 0) (Expr.createInteger 32 1)
        = Expr.interior .ADD 32 (unionFlags [Expr.const 32 1 0, Expr.var 32 n 0])
            [Expr.const 32 1 0, Expr.var 32 n 0] := rfl
    have h2 : makeAdd (Expr.createInteger 32 1) (Expr.var 32 n 0)
        = Expr.interior .ADD 32 (unionFlags [Expr.const 32 1 0, Expr.var 32 n 0])
            [Expr.const 32 1 0, Expr.var 32 n 0] := rfl
    have h3 : unionFlags [Expr.const 32 1 0, Expr.var 32 n 0] = 0 := by
      simp [unionFlags, Expr.flags]
    rw [h1, h2, h3]
    simp [makeEq, Expr.isNumber, isEquivalentTo_refl, Expr.flags,
      Expr.createBoolean, Expr.createInteger]
  · intro a b hw
    show finalizeNode .ADD a.nBits (removeIdentity 0 (foldAdd a.nBits
        (commutative (associative .ADD [a, b]))))
      = finalizeNode .ADD b.nBits (removeIdentity 0 (foldAdd b.nBits
        (commutative (associative .ADD [b, a]))))
    rw [hw, commutative_eq_of_perm (associative_perm_of_perm .ADD (List.Perm.swap b a []))]

/-- Witness for C1: the commutativity component applied at two concrete
8-bit operands of equal width. -/
theorem claim1_witness :
    makeAdd (Expr.var 8 1 0) (Expr.var 8 2 0) = makeAdd (Expr.var 8 2 0) (Expr.var 8 1 0) :=
  claim1_eq_add_commutative_reflexive_fold.2 (Expr.var 8 1 0) (Expr.var 8 2 0) rfl

/-- C3: ADD over two 8-bit constants folds to a single constant leaf of the
same width holding their sum modulo 2^8; in particular
`build(ADD, const(8,200), const(8,100))` equals `const(8,44)`. -/
theorem claim3_add_constant_folding :
    (∀ a b : Nat,
      makeAdd (Expr.createInteger 8 a) (Expr.createInteger 8 b)
        = Expr.createInteger 8 (a + b))
    ∧ makeAdd (Expr.createInteger 8 200) (Expr.createInteger 8 100)
        = Expr.createInteger 8 44 := by
  have hgen : ∀ a b : Nat,
      makeAdd (Expr.createInteger 8 a) (Expr.createInteger 8 b)
        = Expr.createInteger 8 (a + b) := by
    intro a b
    show makeAdd (Expr.const 8 (a % 2 ^ 8) 0) (Expr.const 8 (b % 2 ^ 8) 0)
      = Expr.const 8 ((a + b) % 2 ^ 8) 0
    rw [makeAdd_const0, ← Nat.add_mod]
  exact ⟨hgen, by simpa using hgen 200 100⟩

/-- C5: XOR of a variable with itself folds to the zero constant of the
variable's width carrying zero flags, regardless of the flags attached to
the variable (Simplification Create Rule). -/
theorem claim5_xor_self_cancellation :
    ∀ w id f : Nat, makeXor (Expr.var w id f) (Expr.var w id f) = Expr.const w 0 0 := by
  intro w id f
  simp [makeXor, associative, commutative, List.insertionSort, List.orderedInsert,
    childLeP, childLe, childCmp, sortRank, cmpE_refl, foldXor, isConstE,
    cancelPairs, containsEquiv, eraseEquiv, isEquivalentTo_refl, removeIdentity,
    finalizeNode, Expr.nBits]

theorem dfs_inv {σ : Type} (store : List DagNode) (pre : σ → Nat → σ × Bool)
    (P : σ → Prop) (hpre : ∀ s i, P s → P (pre s i).1) :
    ∀ fuel s i, P s → P (dfs store pre fuel s i) := by
  intro fuel
  induction fuel with
  | zero => intro s i h; simpa [dfs] using h
  | succ fuel ih =>
    intro s i h
    simp only [dfs]
    rcases hp : pre s i with ⟨s', b⟩
    have hs' : P s' := by
      have := hpre s i h
      rwa [hp] at this
    cases b
    · exact hs'
    · have hfold : ∀ (js : List Nat) (t : σ), P t →
          P (js.foldl (fun acc j => dfs store pre fuel acc j) t) := by
        intro js
        induction js with
        | nil => intro t ht; simpa using ht
        | cons j js ihj =>
          intro t ht
          simpa using ihj _ (ih t j ht)
      exact hfold _ s' hs'

theorem dfsRoots_inv {σ : Type} (store : List DagNode) (pre : σ → Nat → σ × Bool)
    (P : σ → Prop) (hpre : ∀ s i, P s → P (pre s i).1) :
    ∀ (roots : List Nat) (fuel : Nat) (s : σ), P s → P (dfsRoots store pre fuel s roots) := by
  intro roots
  induction roots with
  | nil => intro fuel s h; simpa [dfsRoots] using h
  | cons r rs ih =>
    intro fuel s h
    have : dfsRoots store pre fuel s (r :: rs)
        = dfsRoots store pre fuel (dfs store pre fuel s r) rs := rfl
    rw [this]
    exact ih fuel _ (dfs_inv store pre P hpre fuel s r h)

theorem fcsVisit_inv :
    ∀ (s : List Nat × List Nat) (i : Nat),
      (s.2.Nodup ∧ ∀ j, j ∈ s.2 ↔ 2 ≤ s.1.count j) →
      ((fcsVisit s i).1.2.Nodup
        ∧ ∀ j, j ∈ (fcsVisit s i).1.2 ↔ 2 ≤ (fcsVisit s i).1.1.count j) := by
  rintro ⟨visited, res⟩ i ⟨hnd, hmem⟩
  dsimp only at hnd hmem
  simp only [fcsVisit]
  have hcnt : ∀ j, List.count j (i :: visited)
      = List.count j visited + (if j = i then 1 else 0) := by
    intro j
    by_cases hji : j = i
    · subst hji; simp [List.count_cons]
    · simp [List.count_cons, hji]
  by_cases h2 : List.count i visited + 1 = 2
  · have hbeq : (List.count i visited + 1 == 2) = true := by simp [h2]
    have hni : i ∉ res := by
      rw [hmem i]; omega
    constructor
    · simp only [hbeq, if_true]
      rw [List.nodup_append]
      refine ⟨hnd, List.nodup_singleton i, ?_⟩
      intro a ha hai
      rw [List.mem_singleton] at hai
      subst hai
      exact hni ha
    · intro j
      simp only [hbeq, if_true, List.mem_append, List.mem_singleton]
      rw [hcnt j, hmem j]
      by_cases hji : j = i
      · rw [if_pos hji, hji]
        constructor
        · intro _; omega
        · intro _; exact Or.inr rfl
      · simp [hji]
  · have hbeq : (List.count i visited + 1 == 2) = false := by
      simp only [beq_eq_false_iff_ne]; omega
    constructor
    · simpa [hbeq] using hnd
    · intro j
      simp only [hbeq, Bool.false_eq_true, if_false]
      rw [hcnt j, hmem j]
      by_cases hji : j = i
      · rw [if_pos hji, hji]
        constructor
        · intro _; omega
        · intro _; omega
      · simp [hji]

/-- C9 (amended): over any collection of roots, `findCommonSubexpressions`
returns each distinct node object that is reached a second time during the
depth-first search exactly once — the result has no duplicates and contains
exactly the nodes pre-visited at least twice.  (The nested-before-container
ordering clause of the original claim does not hold; see the
counterexample.) -/
theorem claim9_fcs_second_encounter :
    ∀ (store : List DagNode) (fuel : Nat) (roots : List Nat),
      (findCommonSubexpressions store fuel roots).Nodup
      ∧ (∀ i, i ∈ findCommonSubexpressions store fuel roots
          ↔ 2 ≤ (fcsVisited store fuel roots).count i) := by
  intro store fuel roots
  have h := dfsRoots_inv store fcsVisit
    (fun s => s.2.Nodup ∧ ∀ j, j ∈ s.2 ↔ 2 ≤ s.1.count j)
    fcsVisit_inv roots fuel ([], []) (by simp)
  exact ⟨h.1, h.2⟩

/-- Counterexample to C9's ordering clause.  In the store below, node 3 is
`F = op(A, A, B)` with `A = node 2 = op(B, c)` containing `B = node 0`.
Both `A` and `B` are common subexpressions of the result, `A` contains `B`,
yet `B` does not appear earlier than `A` in the returned vector: the result
is `[2, 0]` — the container first.  (The second occurrence of `A` is
truncated, so `B` only reaches its second pre-visit after `A` already has.) -/
theorem claim9_counterexample :
    findCommonSubexpressions
        [DagNode.leaf 0, DagNode.leaf 1, DagNode.inner 0 [0, 1],
          DagNode.inner 0 [2, 2, 0]] 10 [3] = [2, 0]
    ∧ occursIn [DagNode.leaf 0, DagNode.leaf 1, DagNode.inner 0 [0, 1],
          DagNode.inner 0 [2, 2, 0]] 10 2 0 = true
    ∧ listBefore (findCommonSubexpressions
        [DagNode.leaf 0, DagNode.leaf 1, DagNode.inner 0 [0, 1],
          DagNode.inner 0 [2, 2, 0]] 10 [3]) 0 2 = false := by
  decide

theorem dfs_congr {σ : Type} (s₁ s₂ : List DagNode)
    (h : ∀ i, childIndices s₁ i = childIndices s₂ i) (pre : σ → Nat → σ × Bool) :
    ∀ fuel s i, dfs s₁ pre fuel s i = dfs s₂ pre fuel s i := by
  intro fuel
  induction fuel with
  | zero => intro s i; simp [dfs]
  | succ fuel ih =>
    intro s i
    simp only [dfs]
    rcases hp : pre s i with ⟨s', b⟩
    cases b
    · rfl
    · rw [← h i]
      have hfold : ∀ (js : List Nat) (t : σ),
          js.foldl (fun acc j => dfs s₁ pre fuel acc j) t
            = js.foldl (fun acc j => dfs s₂ pre fuel acc j) t := by
        intro js
        induction js with
        | nil => intro t; rfl
        | cons j js ihj =>
          intro t
          simp only [List.foldl]
          rw [ih t j]
          exact ihj _
      exact hfold _ s'

theorem dfsRoots_congr {σ : Type} (s₁ s₂ : List DagNode)
    (h : ∀ i, childIndices s₁ i = childIndices s₂ i) (pre : σ → Nat → σ × Bool) :
    ∀ (roots : List Nat) (fuel : Nat) (s : σ),
      dfsRoots s₁ pre fuel s roots = dfsRoots s₂ pre fuel s roots := by
  intro roots
  induction roots with
  | nil => intro fuel s; rfl
  | cons r rs ih =>
    intro fuel s
    show dfsRoots s₁ pre fuel (dfs s₁ pre fuel s r) rs
      = dfsRoots s₂ pre fuel (dfs s₂ pre fuel s r) rs
    rw [dfs_congr s₁ s₂ h pre fuel s r]
    exact ih fuel _

theorem uniqueVisit_inv :
    ∀ (s : List Nat × Nat) (i : Nat),
      (s.1.Nodup ∧ s.2 = s.1.length) →
      ((uniqueVisit s i).1.1.Nodup ∧ (uniqueVisit s i).1.2 = (uniqueVisit s i).1.1.length) := by
  rintro ⟨seen, n⟩ i ⟨hnd, hlen⟩
  dsimp only at hnd hlen
  by_cases h : i ∈ seen
  · simp [uniqueVisit, h, hnd, hlen]
  · simp [uniqueVisit, h, List.nodup_cons, hnd, hlen]

/-- C10: `nNodesUnique` counts node objects by identity, not by structural
equivalence: the count depends only on the identity graph (it is unchanged
by replacing node contents while keeping the child identities), each node
object is counted at most once (the seen set stays duplicate-free and the
count equals its size), a node object shared twice under one root is
counted once, while two structurally identical but distinct node objects
are counted separately. -/
theorem claim10_nNodesUnique_pointer_identity :
    (∀ s₁ s₂ : List DagNode, (∀ i, childIndices s₁ i = childIndices s₂ i) →
      ∀ fuel roots, nNodesUnique s₁ fuel roots = nNodesUnique s₂ fuel roots)
    ∧ (∀ (store : List DagNode) (fuel : Nat) (roots : List Nat),
        (dfsRoots store uniqueVisit fuel (([], 0) : List Nat × Nat) roots).1.Nodup
        ∧ nNodesUnique store fuel roots
            = (dfsRoots store uniqueVisit fuel (([], 0) : List Nat × Nat) roots).1.length)
    ∧ nNodesUnique [DagNode.leaf 7, DagNode.inner 0 [0, 0]] 10 [1] = 2
    ∧ nNodesUnique [DagNode.leaf 7, DagNode.leaf 7, DagNode.inner 0 [0, 1]] 10 [2] = 3 := by
  refine ⟨?_, ?_, by decide, by decide⟩
  · intro s₁ s₂ h fuel roots
    show (dfsRoots s₁ uniqueVisit fuel ([], 0) roots).2
      = (dfsRoots s₂ uniqueVisit fuel ([], 0) roots).2
    rw [dfsRoots_congr s₁ s₂ h uniqueVisit roots fuel ([], 0)]
  · intro store fuel roots
    have h := dfsRoots_inv store uniqueVisit
      (fun s => s.1.Nodup ∧ s.2 = s.1.length)
      uniqueVisit_inv roots fuel ([], 0) (by simp)
    exact ⟨h.1, h.2⟩

/-- Witness for C10: the content-independence component applied to two
stores with the same child-identity graph but different leaf contents and
operator labels. -/
theorem claim10_witness :
    nNodesUnique [DagNode.leaf 7, DagNode.inner 3 [0, 0]] 10 [1]
      = nNodesUnique [DagNode.leaf 9, DagNode.inner 5 [0, 0]] 10 [1] :=
  claim10_nNodesUnique_pointer_identity.1
    [DagNode.leaf 7, DagNode.inner 3 [0, 0]] [DagNode.leaf 9, DagNode.inner 5 [0, 0]]
    (fun i => match i with
      | 0 => rfl
      | 1 => rfl
      | _ + 2 => rfl)
    10 [1]

end RoseSymExpr
